import Mathlib

/-!
Verification of the diff-ingestion and detection pipeline of the
PatternFly migration evaluation suite.

The TypeScript sources are embedded shallowly:
* numeric code (`src/scoring/engine.ts`, noise penalties) works over `ℚ`;
  the JS sources use IEEE doubles, but every claim under scrutiny is about
  the exact arithmetic of the formulas;
* arrays become `List`, loops with accumulators become `foldl` over an
  explicit state;
* the module-level mutable registry array becomes an explicit heap of
  arrays so that aliasing ("returns a fresh copy") is statable;
* string scanning (the few fixed regular expressions) is implemented by
  structural recursion over `List Char`, character for character faithful
  to the regex on ASCII input.
-/

namespace PfEval

/-- `DetectionStatus` from `src/types.ts`. -/
inductive DetectionStatus where
  | CORRECT
  | MISSING
  | INCORRECT
  | UNNECESSARY
  | FILE_MISSING
  | NOT_APPLICABLE
deriving DecidableEq, Repr

/-- `DiffLine` from `src/types.ts`: a (line-number, text) pair. -/
structure DiffLine where
  lineNumber : Nat
  content : String
deriving DecidableEq, Repr

/-- `DiffHunk` from `src/types.ts`. -/
structure DiffHunk where
  oldStart : Nat
  oldCount : Nat
  newStart : Nat
  newCount : Nat
  lines : List String
deriving DecidableEq, Repr

/-- `FileDiff` from `src/types.ts` (a Change Record). -/
structure FileDiff where
  filePath : String
  oldPath : Option String
  addedLines : List DiffLine
  removedLines : List DiffLine
  hunks : List DiffHunk
  isBinary : Bool
  isRenamed : Bool
deriving DecidableEq, Repr

/-- `DetectionResult` from `src/types.ts`. -/
structure DetectionResult where
  patternId : String
  status : DetectionStatus
  message : String
  details : Option (List String) := none
deriving DecidableEq, Repr

/-- `MatchResult` from `src/types.ts`.  `matched` keeps (golden, migration)
pairs. -/
structure MatchResult where
  matched : List (FileDiff × FileDiff)
  missedFiles : List FileDiff
  extraFiles : List FileDiff
deriving DecidableEq, Repr

/-- The closed set of noise categories of `NoiseInstance` in `src/types.ts`. -/
inductive NoiseType where
  | unnecessary_change
  | formatting_only
  | incorrect_migration
  | artifact
  | placeholder_token
deriving DecidableEq, Repr

/-- `NoiseInstance` from `src/types.ts`; the penalty is a rational. -/
structure NoiseInstance where
  type : NoiseType
  file : String
  line : Option Nat := none
  description : String
  penalty : ℚ
deriving DecidableEq, Repr

/-! ## Scoring engine — `src/eval/approach1/src/scoring/engine.ts` -/

/-- `WeightedDetectionResult` from `engine.ts`. -/
structure WeightedDetectionResult where
  result : DetectionResult
  weight : ℚ
deriving DecidableEq, Repr

/-- `ScoreInput` from `engine.ts`. -/
structure ScoreInput where
  matchResult : MatchResult
  weightedResults : List WeightedDetectionResult
  noiseInstances : List NoiseInstance

/-- `ScoreBreakdown` from `engine.ts`. -/
structure ScoreBreakdown where
  overallScore : ℚ
  fileCoverage : ℚ
  patternScore : ℚ
  noisePenalty : ℚ
deriving DecidableEq, Repr

/-- The `CREDIT` partial record from `engine.ts`: `CORRECT` 1.0,
`INCORRECT` 0.25, `MISSING` 0, `FILE_MISSING` 0, others absent. -/
def CREDIT : DetectionStatus → Option ℚ
  | .CORRECT => some 1
  | .INCORRECT => some 0.25
  | .MISSING => some 0
  | .FILE_MISSING => some 0
  | _ => none

/-- `CREDIT[result.status] ?? 0` from `computePatternScore`. -/
def creditOf (s : DetectionStatus) : ℚ := (CREDIT s).getD 0

/-- `computeFileCoverage` from `engine.ts`. -/
def computeFileCoverage (matchResult : MatchResult) : ℚ :=
  let goldenTotal : ℚ := matchResult.matched.length + matchResult.missedFiles.length
  if goldenTotal = 0 then 1 else (matchResult.matched.length : ℚ) / goldenTotal

/-- One iteration of the loop of `computePatternScore`. -/
def patternStep (acc : ℚ × ℚ) (r : WeightedDetectionResult) : ℚ × ℚ :=
  if r.result.status = .NOT_APPLICABLE then acc
  else (acc.1 + r.weight * creditOf r.result.status, acc.2 + r.weight * 1)

/-- The accumulation loop of `computePatternScore`:
`(weightedCredit, weightedExpected)` after folding the result list. -/
def patternTotals (results : List WeightedDetectionResult) : ℚ × ℚ :=
  results.foldl patternStep (0, 0)

/-- `computePatternScore` from `engine.ts`. -/
def computePatternScore (results : List WeightedDetectionResult) : ℚ :=
  let t := patternTotals results
  if t.2 = 0 then 1 else t.1 / t.2

/-- `computeNoisePenalty` from `engine.ts`:
`min(1.0, noiseInstances.reduce((sum, n) => sum + n.penalty, 0))`. -/
def computeNoisePenalty (noiseInstances : List NoiseInstance) : ℚ :=
  min 1 (noiseInstances.foldl (fun sum n => sum + n.penalty) 0)

/-- The private `round` of `engine.ts`: `Math.round(value * 100) / 100`
(JS `Math.round` is floor of `x + 1/2`). -/
def round (value : ℚ) : ℚ := (⌊value * 100 + 1/2⌋ : ℚ) / 100

/-- `computeScore` from `engine.ts`. -/
def computeScore (input : ScoreInput) : ScoreBreakdown :=
  let fileCoverage := computeFileCoverage input.matchResult
  let patternScore := computePatternScore input.weightedResults
  let noisePenalty := computeNoisePenalty input.noiseInstances
  let overallScore := 0.20 * fileCoverage + 0.65 * patternScore + 0.15 * (1 - noisePenalty)
  { overallScore := round (overallScore * 100)
    fileCoverage := round (fileCoverage * 100)
    patternScore := round (patternScore * 100)
    noisePenalty := round (noisePenalty * 100) }

/-! ## Helper lemmas for the scoring engine -/

theorem foldl_add_penalty (ns : List NoiseInstance) (a : ℚ) :
    ns.foldl (fun sum n => sum + n.penalty) a = a + (ns.map NoiseInstance.penalty).sum := by
  induction ns generalizing a with
  | nil => simp
  | cons n ns ih => simp [ih, add_assoc]

/-- The graded sublist of `computePatternScore`: outcomes that are not
`NOT_APPLICABLE`. -/
def gradedResults (results : List WeightedDetectionResult) : List WeightedDetectionResult :=
  results.filter (fun r => r.result.status ≠ .NOT_APPLICABLE)

theorem patternTotals_eq (results : List WeightedDetectionResult) (a b : ℚ) :
    results.foldl patternStep (a, b)
    = (a + ((gradedResults results).map (fun r => r.weight * creditOf r.result.status)).sum,
       b + ((gradedResults results).map (fun r => r.weight)).sum) := by
  induction results generalizing a b with
  | nil => simp [gradedResults]
  | cons r rs ih =>
    by_cases h : r.result.status = .NOT_APPLICABLE
    · simp only [List.foldl_cons, patternStep, if_pos h, ih]
      simp [gradedResults, List.filter_cons, h]
    · simp only [List.foldl_cons, patternStep, if_neg h, ih]
      simp [gradedResults, List.filter_cons, h, add_assoc]

theorem patternTotals_spec (results : List WeightedDetectionResult) :
    patternTotals results
    = (((gradedResults results).map (fun r => r.weight * creditOf r.result.status)).sum,
       ((gradedResults results).map (fun r => r.weight)).sum) := by
  have h := patternTotals_eq results 0 0
  simpa [patternTotals] using h

theorem sum_pos_of_nonneg_of_mem_pos {l : List ℚ}
    (hnn : ∀ x ∈ l, 0 ≤ x) (hex : ∃ x ∈ l, 0 < x) : 0 < l.sum := by
  induction l with
  | nil => simp at hex
  | cons y ys ih =>
    rcases hex with ⟨x, hx, hxpos⟩
    rcases List.mem_cons.mp hx with rfl | hx
    · have : (0 : ℚ) ≤ ys.sum := by
        apply List.sum_nonneg
        intro z hz
        exact hnn z (List.mem_cons_of_mem _ hz)
      simpa [List.sum_cons] using add_pos_of_pos_of_nonneg hxpos this
    · have hy : (0 : ℚ) ≤ y := hnn y (List.mem_cons_self _ _)
      have : 0 < ys.sum := ih (fun z hz => hnn z (List.mem_cons_of_mem _ hz)) ⟨x, hx, hxpos⟩
      simpa [List.sum_cons] using add_pos_of_nonneg_of_pos hy this

theorem creditOf_nonneg (s : DetectionStatus) : 0 ≤ creditOf s := by
  cases s <;> norm_num [creditOf, CREDIT]

/-- A noise instance carrying the 0.05 penalty, for the clamping scenario. -/
def noise005 : NoiseInstance :=
  { type := .artifact, file := "f", description := "d", penalty := 0.05 }

/-- **C1.** For every Match Result, weighted outcome list and noise list, the
scoring engine computes noise penalty `min(1, Σ penalties)`, file coverage
`matched / (matched + missed)` (1 when the denominator is zero), overall
`0.20·coverage + 0.65·pattern + 0.15·(1 − noise)`, reports each of the four
numbers rounded to two decimals on a 0–100 scale, and 25 instances of penalty
0.05 clamp to a reported noise penalty of 100, contributing a zero (not
negative) noise term to the overall score. -/
theorem C1_score_breakdown_formula (input : ScoreInput) :
    (computeScore input).noisePenalty
      = round (100 * min 1 ((input.noiseInstances.map NoiseInstance.penalty).sum))
  ∧ (computeScore input).fileCoverage
      = round (100 * (if ((input.matchResult.matched.length : ℚ)
              + input.matchResult.missedFiles.length) = 0 then 1
          else (input.matchResult.matched.length : ℚ)
            / ((input.matchResult.matched.length : ℚ)
              + input.matchResult.missedFiles.length)))
  ∧ (computeScore input).patternScore
      = round (100 * computePatternScore input.weightedResults)
  ∧ (computeScore input).overallScore
      = round (100 * (0.20 * computeFileCoverage input.matchResult
          + 0.65 * computePatternScore input.weightedResults
          + 0.15 * (1 - computeNoisePenalty input.noiseInstances)))
  ∧ (computeScore { input with noiseInstances := List.replicate 25 noise005 }).noisePenalty
      = 100
  ∧ (computeScore { input with noiseInstances := List.replicate 25 noise005 }).overallScore
      = round (100 * (0.20 * computeFileCoverage input.matchResult
          + 0.65 * computePatternScore input.weightedResults + 0.15 * (1 - 1))) := by
  have hfold : ∀ ns : List NoiseInstance,
      computeNoisePenalty ns = min 1 ((ns.map NoiseInstance.penalty).sum) := by
    intro ns
    simp [computeNoisePenalty, foldl_add_penalty]
  have hclamp : computeNoisePenalty (List.replicate 25 noise005) = 1 := by
    rw [hfold]
    norm_num [List.sum_replicate, noise005]
  refine ⟨?_, ?_, ?_, ?_, ?_, ?_⟩
  · simp [computeScore, hfold, mul_comm]
  · simp [computeScore, computeFileCoverage, mul_comm]
  · simp [computeScore, mul_comm]
  · simp [computeScore, mul_comm]
  · simp only [computeScore, hclamp]
    norm_num [round]
  · simp only [computeScore, hclamp]
    congr 1
    ring

/-- **C4.** The pattern score is the weight-weighted average credit over the
non-`NOT_APPLICABLE` outcomes (1 when their total weight is zero), with
credits `CORRECT` 1, `INCORRECT` 1/4, `MISSING` 0, `FILE_MISSING` 0; one
`CORRECT` outcome at weight 3 plus one `MISSING` outcome at weight 1 scores
3/4. -/
theorem C4_pattern_score_formula (results : List WeightedDetectionResult) :
    computePatternScore results
      = (if ((gradedResults results).map (fun r => r.weight)).sum = 0 then 1
         else ((gradedResults results).map
                 (fun r => r.weight * creditOf r.result.status)).sum
           / ((gradedResults results).map (fun r => r.weight)).sum)
  ∧ creditOf .CORRECT = 1 ∧ creditOf .INCORRECT = 1/4
  ∧ creditOf .MISSING = 0 ∧ creditOf .FILE_MISSING = 0
  ∧ computePatternScore
      [⟨⟨"a", .CORRECT, "", none⟩, 3⟩, ⟨⟨"b", .MISSING, "", none⟩, 1⟩] = 3/4 := by
  refine ⟨?_, by norm_num [creditOf, CREDIT], by norm_num [creditOf, CREDIT],
    by norm_num [creditOf, CREDIT], by norm_num [creditOf, CREDIT], ?_⟩
  · simp [computePatternScore, patternTotals_spec]
  · have hC : (DetectionStatus.CORRECT = DetectionStatus.NOT_APPLICABLE) = False :=
      eq_false (fun h => DetectionStatus.noConfusion h)
    have hM : (DetectionStatus.MISSING = DetectionStatus.NOT_APPLICABLE) = False :=
      eq_false (fun h => DetectionStatus.noConfusion h)
    simp [computePatternScore, patternTotals_spec, gradedResults, hC, hM, creditOf, CREDIT]
    norm_num

/-- **C10.** An `UNNECESSARY` outcome is not excluded from grading the way
`NOT_APPLICABLE` is: it adds its full weight to the denominator with credit
0, so appending one strictly lowers the pattern score whenever some outcome
with positive credit (a `CORRECT` or `INCORRECT` one of positive weight) is
present and all weights are nonnegative. -/
theorem C10_unnecessary_lowers_score (results : List WeightedDetectionResult)
    (pid msg : String) (w : ℚ) :
    patternTotals (results ++ [⟨⟨pid, .UNNECESSARY, msg, none⟩, w⟩])
      = ((patternTotals results).1, (patternTotals results).2 + w)
  ∧ (0 < w →
     (∀ r ∈ results, 0 ≤ r.weight) →
     (∃ r ∈ results, 0 < r.weight ∧
        (r.result.status = .CORRECT ∨ r.result.status = .INCORRECT)) →
     computePatternScore (results ++ [⟨⟨pid, .UNNECESSARY, msg, none⟩, w⟩])
       < computePatternScore results) := by
  have htot : patternTotals (results ++ [⟨⟨pid, .UNNECESSARY, msg, none⟩, w⟩])
      = ((patternTotals results).1, (patternTotals results).2 + w) := by
    simp [patternTotals, List.foldl_append, patternStep, creditOf, CREDIT]
  refine ⟨htot, ?_⟩
  intro hw hnn ⟨r₀, hr₀, hw₀, hst₀⟩
  have hmemg : r₀ ∈ gradedResults results := by
    refine List.mem_filter.mpr ⟨hr₀, ?_⟩
    rcases hst₀ with h | h <;> simp [h]
  have hcr : 0 < creditOf r₀.result.status := by
    rcases hst₀ with h | h <;> norm_num [h, creditOf, CREDIT]
  have hnum : 0 < ((gradedResults results).map
      (fun r => r.weight * creditOf r.result.status)).sum := by
    apply sum_pos_of_nonneg_of_mem_pos
    · intro x hx
      rcases List.mem_map.mp hx with ⟨r, hr, rfl⟩
      have : r ∈ results := (List.mem_filter.mp hr).1
      exact mul_nonneg (hnn r this) (creditOf_nonneg _)
    · exact ⟨r₀.weight * creditOf r₀.result.status, List.mem_map.mpr ⟨r₀, hmemg, rfl⟩,
        mul_pos hw₀ hcr⟩
  have hden : 0 < ((gradedResults results).map (fun r => r.weight)).sum := by
    apply sum_pos_of_nonneg_of_mem_pos
    · intro x hx
      rcases List.mem_map.mp hx with ⟨r, hr, rfl⟩
      exact hnn r (List.mem_filter.mp hr).1
    · exact ⟨r₀.weight, List.mem_map.mpr ⟨r₀, hmemg, rfl⟩, hw₀⟩
  have hspec := patternTotals_spec results
  have h1 : (patternTotals results).1
      = ((gradedResults results).map (fun r => r.weight * creditOf r.result.status)).sum := by
    rw [hspec]
  have h2 : (patternTotals results).2
      = ((gradedResults results).map (fun r => r.weight)).sum := by
    rw [hspec]
  rw [computePatternScore, computePatternScore, htot]
  simp only [h1, h2, if_neg (ne_of_gt hden),
    if_neg (ne_of_gt (add_pos hden hw))]
  exact div_lt_div_of_pos_left hnum (by linarith) (by linarith)

/-- Witness for `C10_unnecessary_lowers_score` at a concrete input: one
`CORRECT` outcome of weight 1, then an `UNNECESSARY` outcome of weight 1. -/
theorem C10_unnecessary_lowers_score_witness :
    computePatternScore
        ([⟨⟨"a", .CORRECT, "", none⟩, (1 : ℚ)⟩] ++ [⟨⟨"u", .UNNECESSARY, "", none⟩, 1⟩])
      < computePatternScore [⟨⟨"a", .CORRECT, "", none⟩, (1 : ℚ)⟩] :=
  (C10_unnecessary_lowers_score [⟨⟨"a", .CORRECT, "", none⟩, 1⟩] "u" "" 1).2
    (by norm_num)
    (by intro r hr; simp at hr; subst hr; norm_num)
    ⟨⟨⟨"a", .CORRECT, "", none⟩, 1⟩, by simp, by norm_num, Or.inl rfl⟩

/-! ## Detector contract types — `src/types.ts` -/

/-- `ImportDeclaration` from `src/types.ts`. -/
structure ImportDeclaration where
  moduleSpecifier : String
  namedImports : List String
  defaultImport : Option String := none
deriving DecidableEq, Repr

/-- `JSXProp` from `src/types.ts`. -/
structure JSXProp where
  name : String
  value : Option String := none
deriving DecidableEq, Repr

/-- `JSXComponentUsage` from `src/types.ts`. -/
structure JSXComponentUsage where
  tagName : String
  props : List JSXProp
  children : List String
deriving DecidableEq, Repr

/-- `ASTRepresentation` from `src/types.ts`. -/
structure ASTRepresentation where
  imports : List ImportDeclaration
  jsxComponents : List JSXComponentUsage
  filePath : String
  parseErrors : List String
deriving DecidableEq, Repr

/-- The complexity tier of `PatternDefinition`. -/
inductive Complexity where
  | trivial
  | moderate
  | complex
deriving DecidableEq, Repr

/-- `PatternDefinition` from `src/types.ts`. -/
structure PatternDefinition where
  id : String
  name : String
  complexity : Complexity
  weight : Nat
  description : String
  detect : FileDiff → Option FileDiff → Option ASTRepresentation →
    Option ASTRepresentation → DetectionResult

/-! ## Detector registry — `src/patterns/registry.ts`

The module keeps one mutable array `patterns`.  To make array aliasing
statable ("`getPatterns` returns a fresh copy"), the embedding carries an
explicit heap of arrays: `arrays` is the store, `registryRef` the address of
the module-level `patterns` array, and `getPatterns` allocates a fresh
address holding a copy (`[...patterns]`). -/

structure RegistryHeap where
  arrays : List (List PatternDefinition)
  registryRef : Nat

/-- Dereference an array address (out-of-range reads as `[]`). -/
def readArr (h : RegistryHeap) (r : Nat) : List PatternDefinition :=
  h.arrays.getD r []

/-- Overwrite the array at an address. -/
def writeArr (h : RegistryHeap) (r : Nat) (v : List PatternDefinition) : RegistryHeap :=
  { h with arrays := h.arrays.set r v }

/-- The current contents of the module-level `patterns` array. -/
def catalog (h : RegistryHeap) : List PatternDefinition :=
  readArr h h.registryRef

/-- The module-initialization state: `patterns` allocated empty. -/
def initHeap : RegistryHeap := ⟨[[]], 0⟩

/-- `registerPattern` from `registry.ts`: `patterns.push(pattern)`. -/
def registerPattern (p : PatternDefinition) (h : RegistryHeap) : RegistryHeap :=
  writeArr h h.registryRef (catalog h ++ [p])

/-- `getPatterns` from `registry.ts`: `return [...patterns]` — allocates a
fresh array holding a copy and returns its address. -/
def getPatterns (h : RegistryHeap) : RegistryHeap × Nat :=
  ({ h with arrays := h.arrays ++ [catalog h] }, h.arrays.length)

/-- `clearPatterns` from `registry.ts`: `patterns.length = 0`. -/
def clearPatterns (h : RegistryHeap) : RegistryHeap :=
  writeArr h h.registryRef []

theorem getD_set_self {α : Type _} (l : List α) (i : Nat) (v d : α)
    (h : i < l.length) : (l.set i v).getD i d = v := by
  induction l generalizing i with
  | nil => simp at h
  | cons a l ih =>
    cases i with
    | zero => simp [List.set, List.getD]
    | succ j =>
      simp only [List.set, List.getD_cons_succ]
      exact ih j (by simpa using h)

theorem getD_set_ne {α : Type _} (l : List α) (i j : Nat) (v d : α)
    (h : j ≠ i) : (l.set i v).getD j d = l.getD j d := by
  induction l generalizing i j with
  | nil => simp [List.set]
  | cons a l ih =>
    cases i with
    | zero =>
      cases j with
      | zero => exact absurd rfl h
      | succ k => simp [List.set]
    | succ i' =>
      cases j with
      | zero => simp [List.set]
      | succ k =>
        simp only [List.set, List.getD_cons_succ]
        exact ih i' k (fun he => h (by simp [he]))

theorem getD_append_left {α : Type _} (l₁ l₂ : List α) (i : Nat) (d : α)
    (h : i < l₁.length) : (l₁ ++ l₂).getD i d = l₁.getD i d := by
  induction l₁ generalizing i with
  | nil => simp at h
  | cons a l ih =>
    cases i with
    | zero => simp
    | succ j =>
      simp only [List.cons_append, List.getD_cons_succ]
      exact ih j (by simpa using h)

theorem getD_append_length {α : Type _} (l₁ : List α) (x d : α) :
    (l₁ ++ [x]).getD l₁.length d = x := by
  induction l₁ with
  | nil => simp [List.getD]
  | cons a l ih =>
    simp only [List.cons_append, List.length_cons, List.getD_cons_succ]
    exact ih

theorem registerPattern_preserves (p : PatternDefinition) (h : RegistryHeap) :
    (registerPattern p h).registryRef = h.registryRef
  ∧ (registerPattern p h).arrays.length = h.arrays.length := by
  simp [registerPattern, writeArr]

theorem catalog_registerPattern (p : PatternDefinition) (h : RegistryHeap)
    (hwf : h.registryRef < h.arrays.length) :
    catalog (registerPattern p h) = catalog h ++ [p] := by
  simp only [catalog, registerPattern, readArr, writeArr]
  exact getD_set_self _ _ _ _ hwf

theorem catalog_foldl_register (ps : List PatternDefinition) (h : RegistryHeap)
    (hwf : h.registryRef < h.arrays.length) :
    catalog (ps.foldl (fun st q => registerPattern q st) h) = catalog h ++ ps := by
  induction ps generalizing h with
  | nil => simp
  | cons p ps ih =>
    have hpres := registerPattern_preserves p h
    have hwf' : (registerPattern p h).registryRef < (registerPattern p h).arrays.length := by
      rw [hpres.1, hpres.2]; exact hwf
    simp only [List.foldl_cons]
    rw [ih _ hwf', catalog_registerPattern p h hwf]
    simp

/-- **C9.** The detector catalog is append-only and resettable:
`registerPattern` appends; registering a list from the initial state leaves
the catalog holding exactly that list in registration order; `getPatterns`
returns a fresh copy equal to the catalog without changing it; after
`clearPatterns` a subsequent `getPatterns` yields `[]`; and overwriting the
array returned by `getPatterns` leaves the catalog unchanged. -/
theorem C9_registry_catalog (h : RegistryHeap) (p : PatternDefinition)
    (ps : List PatternDefinition) (hwf : h.registryRef < h.arrays.length) :
    catalog (registerPattern p h) = catalog h ++ [p]
  ∧ catalog (ps.foldl (fun st q => registerPattern q st) initHeap) = ps
  ∧ readArr (getPatterns h).1 (getPatterns h).2 = catalog h
  ∧ catalog (getPatterns h).1 = catalog h
  ∧ catalog (clearPatterns h) = []
  ∧ readArr (getPatterns (clearPatterns h)).1 (getPatterns (clearPatterns h)).2 = []
  ∧ (∀ v, catalog (writeArr (getPatterns h).1 (getPatterns h).2 v) = catalog h) := by
  have hcopy : ∀ k : RegistryHeap, readArr (getPatterns k).1 (getPatterns k).2 = catalog k := by
    intro k
    simp only [getPatterns, readArr, catalog]
    exact getD_append_length _ _ _
  have hclear : catalog (clearPatterns h) = [] := by
    simp only [catalog, clearPatterns, readArr, writeArr]
    exact getD_set_self _ _ _ _ hwf
  refine ⟨catalog_registerPattern p h hwf, ?_, hcopy h, ?_, hclear, ?_, ?_⟩
  · rw [catalog_foldl_register ps initHeap (by simp [initHeap])]
    simp [catalog, initHeap, readArr]
  · simp only [getPatterns, catalog, readArr]
    exact getD_append_left _ _ _ _ hwf
  · rw [hcopy (clearPatterns h), hclear]
  · intro v
    simp only [getPatterns, catalog, readArr, writeArr]
    rw [getD_set_ne _ _ _ _ _ (Nat.ne_of_lt hwf)]
    exact getD_append_left _ _ _ _ hwf

/-- A concrete detector definition used by witnesses. -/
def samplePattern : PatternDefinition :=
  { id := "p", name := "P", complexity := .trivial, weight := 1, description := ""
    detect := fun _ _ _ _ => ⟨"p", .NOT_APPLICABLE, "", none⟩ }

/-- Witness for `C9_registry_catalog`: from the initial state, registering
`samplePattern` leaves a one-element catalog. -/
theorem C9_registry_catalog_witness :
    initHeap.registryRef < initHeap.arrays.length
  ∧ catalog (registerPattern samplePattern initHeap) = catalog initHeap ++ [samplePattern] :=
  ⟨by simp [initHeap],
   (C9_registry_catalog initHeap samplePattern [samplePattern] (by simp [initHeap])).1⟩

/-! ## String scanning primitives

Core `String` operations are re-implemented by structural recursion over
`List Char` (the JS sources work on UTF-16 strings; all inputs of interest
are ASCII). -/

/-- Whitespace as matched by the JS regex class `\s` (ASCII part). -/
def isJsWs (c : Char) : Bool :=
  c = ' ' || c = '\t' || c = '\n' || c = '\r' || c = Char.ofNat 11 || c = Char.ofNat 12

/-- The JS word-character class `\w` = `[A-Za-z0-9_]`. -/
def isWordChar (c : Char) : Bool :=
  (Char.ofNat 97 ≤ c && c ≤ Char.ofNat 122) || (Char.ofNat 65 ≤ c && c ≤ Char.ofNat 90) ||
  (Char.ofNat 48 ≤ c && c ≤ Char.ofNat 57) || c = '_'

/-- Prefix test on character lists (JS `String.prototype.startsWith`). -/
def charsPre : List Char → List Char → Bool
  | [], _ => true
  | _ :: _, [] => false
  | p :: ps, c :: cs => p = c && charsPre ps cs

/-- `s.startsWith pre` on strings. -/
def strStarts (s pre : String) : Bool := charsPre pre.data s.data

/-- Drop a prefix if present, returning the remainder. -/
def stripChars : List Char → List Char → Option (List Char)
  | [], cs => some cs
  | _ :: _, [] => none
  | p :: ps, c :: cs => if p = c then stripChars ps cs else none

/-- Substring containment (JS `String.prototype.includes`). -/
def charsInfix (p : List Char) : List Char → Bool
  | [] => charsPre p []
  | c :: cs => charsPre p (c :: cs) || charsInfix p cs

/-- `s.includes sub` on strings. -/
def strIncl (s sub : String) : Bool := charsInfix sub.data s.data

/-- First index of a substring (JS `String.prototype.indexOf`). -/
def charsIdxOf (p : List Char) : List Char → Option Nat
  | [] => if charsPre p [] then some 0 else none
  | c :: cs =>
    if charsPre p (c :: cs) then some 0
    else (charsIdxOf p cs).map (· + 1)

/-- Suffix test via reversal (for the exclusion regexes anchored with `$`). -/
def strEnds (s suffix : String) : Bool := charsPre suffix.data.reverse s.data.reverse

/-- Split a character list at every `\n` (JS `split('\n')`). -/
def splitNlAux : List Char → List Char → List (List Char)
  | [], acc => [acc.reverse]
  | c :: cs, acc =>
    if c = '\n' then acc.reverse :: splitNlAux cs []
    else splitNlAux cs (c :: acc)

/-- Split a string into its lines (JS `split('\n')`). -/
def splitNl (s : String) : List String := (splitNlAux s.data []).map String.mk

/-- Split a character list at every space (JS `split(' ')`). -/
def splitSpAux : List Char → List Char → List (List Char)
  | [], acc => [acc.reverse]
  | c :: cs, acc =>
    if c = ' ' then acc.reverse :: splitSpAux cs []
    else splitSpAux cs (c :: acc)

/-- Split a string at spaces (JS `split(' ')`). -/
def splitSp (s : String) : List String := (splitSpAux s.data []).map String.mk

/-- JS `String.prototype.trim` (ASCII whitespace). -/
def jsTrim (s : String) : String :=
  String.mk (((s.data.dropWhile isJsWs).reverse.dropWhile isJsWs).reverse)

/-- `s.slice n` — drop the first `n` characters. -/
def strDrop (s : String) (n : Nat) : String := String.mk (s.data.drop n)

/-- `s.slice 0 n` — take the first `n` characters. -/
def strTake (s : String) (n : Nat) : String := String.mk (s.data.take n)

/-! ## Path normalizer / file matcher — `src/analysis/file-matcher.ts` -/

/-- `normalizePath` from `file-matcher.ts`: strip a leading `a/` or `b/`,
then replace every backslash by a forward slash. -/
def normalizePath (filePath : String) : String :=
  let p := if strStarts filePath "a/" || strStarts filePath "b/"
    then strDrop filePath 2 else filePath
  String.mk (p.data.map (fun c => if c = '\\' then '/' else c))

/-- `EXCLUDED_PATTERNS` applied to a normalized path: the four regexes are
all of the form `/…suffix$/`, so each is a suffix test. -/
def matchesExcluded (normalized : String) : Bool :=
  strEnds normalized ".snap" || strEnds normalized "package-lock.json" ||
  strEnds normalized "yarn.lock" || strEnds normalized "pnpm-lock.yaml"

/-- `isExcluded` from `file-matcher.ts`. -/
def isExcluded (filePath : String) : Bool := matchesExcluded (normalizePath filePath)

/-- The `migrationMap` of `matchFiles`: successive `Map.set` calls mean the
last record with a given normalized path wins, i.e. lookup is `find?` over
the reversed list. -/
def migLookup (migrationFiltered : List FileDiff) (path : String) : Option FileDiff :=
  migrationFiltered.reverse.find? (fun d => normalizePath d.filePath = path)

/-- One iteration of the golden-file loop of `matchFiles`, accumulating
`(matched, missedFiles, matchedMigrationPaths)`. -/
def matchStep (migrationFiltered : List FileDiff)
    (acc : List (FileDiff × FileDiff) × List FileDiff × List String)
    (g : FileDiff) : List (FileDiff × FileDiff) × List FileDiff × List String :=
  match migLookup migrationFiltered (normalizePath g.filePath) with
  | some m => (acc.1 ++ [(g, m)], acc.2.1, acc.2.2 ++ [normalizePath g.filePath])
  | none => (acc.1, acc.2.1 ++ [g], acc.2.2)

/-- `matchFiles` from `file-matcher.ts`. -/
def matchFiles (goldenDiffs migrationDiffs : List FileDiff) : MatchResult :=
  let goldenFiltered := goldenDiffs.filter (fun d => !isExcluded d.filePath)
  let migrationFiltered := migrationDiffs.filter (fun d => !isExcluded d.filePath)
  let acc := goldenFiltered.foldl (matchStep migrationFiltered) ([], [], [])
  let extraFiles := migrationFiltered.filter
    (fun d => decide (normalizePath d.filePath ∉ acc.2.2))
  ⟨acc.1, acc.2.1, extraFiles⟩

/-! ## Characterization of `matchFiles` -/

theorem matchFold_spec (mf gl : List FileDiff)
    (a : List (FileDiff × FileDiff)) (b : List FileDiff) (c : List String) :
    gl.foldl (matchStep mf) (a, b, c)
    = (a ++ gl.filterMap
          (fun g => (migLookup mf (normalizePath g.filePath)).map (fun m => (g, m))),
       b ++ gl.filter (fun g => (migLookup mf (normalizePath g.filePath)).isNone),
       c ++ (gl.filter
          (fun g => (migLookup mf (normalizePath g.filePath)).isSome)).map
            (fun g => normalizePath g.filePath)) := by
  induction gl generalizing a b c with
  | nil => simp
  | cons g gl ih =>
    cases hl : migLookup mf (normalizePath g.filePath) with
    | none =>
      simp only [List.foldl_cons, matchStep, hl]
      rw [ih]
      simp [hl]
    | some m =>
      simp only [List.foldl_cons, matchStep, hl]
      rw [ih]
      simp [hl]

/-- The list of matched normalized golden paths built by the loop. -/
def matchedPaths (gs ms : List FileDiff) : List String :=
  let mf := ms.filter (fun d => !isExcluded d.filePath)
  ((gs.filter (fun d => !isExcluded d.filePath)).filter
    (fun g => (migLookup mf (normalizePath g.filePath)).isSome)).map
      (fun g => normalizePath g.filePath)

theorem matchFiles_matched (gs ms : List FileDiff) :
    (matchFiles gs ms).matched
    = (gs.filter (fun d => !isExcluded d.filePath)).filterMap
        (fun g => (migLookup (ms.filter (fun d => !isExcluded d.filePath))
          (normalizePath g.filePath)).map (fun m => (g, m))) := by
  simp [matchFiles, matchFold_spec]

theorem matchFiles_missed (gs ms : List FileDiff) :
    (matchFiles gs ms).missedFiles
    = (gs.filter (fun d => !isExcluded d.filePath)).filter
        (fun g => (migLookup (ms.filter (fun d => !isExcluded d.filePath))
          (normalizePath g.filePath)).isNone) := by
  simp [matchFiles, matchFold_spec]

theorem matchFiles_extra (gs ms : List FileDiff) :
    (matchFiles gs ms).extraFiles
    = (ms.filter (fun d => !isExcluded d.filePath)).filter
        (fun d => decide (normalizePath d.filePath ∉ matchedPaths gs ms)) := by
  simp [matchFiles, matchFold_spec, matchedPaths]

theorem migLookup_eq_some (mf : List FileDiff) (p : String) (m : FileDiff)
    (h : migLookup mf p = some m) :
    m ∈ mf ∧ normalizePath m.filePath = p := by
  refine ⟨?_, ?_⟩
  · have := List.mem_of_find?_eq_some h
    exact List.mem_reverse.mp this
  · have := List.find?_some h
    simpa using this

theorem migLookup_self (mf : List FileDiff) (c : FileDiff)
    (hnd : (mf.map (fun d => normalizePath d.filePath)).Nodup) (hc : c ∈ mf) :
    migLookup mf (normalizePath c.filePath) = some c := by
  have hsome : (migLookup mf (normalizePath c.filePath)).isSome := by
    rw [migLookup, List.find?_isSome]
    exact ⟨c, List.mem_reverse.mpr hc, by simp⟩
  obtain ⟨m, hm⟩ := Option.isSome_iff_exists.mp hsome
  obtain ⟨hmem, hpath⟩ := migLookup_eq_some mf _ m hm
  have : m = c := List.inj_on_of_nodup_map hnd hmem hc hpath
  rw [hm, this]

/-- Concrete records for the matcher counterexample and witnesses. -/
def cexG : FileDiff := ⟨"f", none, [], [], [], false, false⟩

/-- A candidate record for path `f`. -/
def cexM1 : FileDiff := ⟨"f", none, [⟨1, "x"⟩], [], [], false, false⟩

/-- A second, distinct candidate record for the same path `f`. -/
def cexM2 : FileDiff := ⟨"f", none, [⟨2, "y"⟩], [], [], false, false⟩

/-- **C3 counterexample.** With two non-excluded candidate records sharing the
normalized path `f`, the shadowed duplicate `cexM1` appears in neither
`matched` nor `extra`: the Match Result is not a partition of candidate
records as claimed. -/
theorem C3_match_partition_counterexample :
    isExcluded cexM1.filePath = false
  ∧ cexM1 ∈ [cexM1, cexM2]
  ∧ cexM1 ≠ cexM2
  ∧ (matchFiles [cexG] [cexM1, cexM2]).matched.map Prod.snd = [cexM2]
  ∧ cexM1 ∉ (matchFiles [cexG] [cexM1, cexM2]).matched.map Prod.snd
  ∧ cexM1 ∉ (matchFiles [cexG] [cexM1, cexM2]).extraFiles := by
  decide

/-- **C3 (amended).** `matchFiles` is a partition up to duplicate candidate
paths: every non-excluded golden record lands in exactly one of
{matched, missed}; every excluded record appears in none of the three
collections; and — provided the non-excluded candidate records have pairwise
distinct normalized paths — every non-excluded candidate record lands in
exactly one of {matched, extra}. -/
theorem C3_match_partition (gs ms : List FileDiff) :
    (∀ g ∈ gs, isExcluded g.filePath = false →
      ((∃ m, (g, m) ∈ (matchFiles gs ms).matched) ∧ g ∉ (matchFiles gs ms).missedFiles)
      ∨ (g ∈ (matchFiles gs ms).missedFiles ∧ ∀ m, (g, m) ∉ (matchFiles gs ms).matched))
  ∧ (((ms.filter (fun d => !isExcluded d.filePath)).map
        (fun d => normalizePath d.filePath)).Nodup →
     ∀ c ∈ ms, isExcluded c.filePath = false →
      ((∃ g, (g, c) ∈ (matchFiles gs ms).matched) ∧ c ∉ (matchFiles gs ms).extraFiles)
      ∨ (c ∈ (matchFiles gs ms).extraFiles ∧ ∀ g, (g, c) ∉ (matchFiles gs ms).matched))
  ∧ (∀ r, isExcluded r.filePath = true →
      (∀ pr ∈ (matchFiles gs ms).matched, pr.1 ≠ r ∧ pr.2 ≠ r)
      ∧ r ∉ (matchFiles gs ms).missedFiles ∧ r ∉ (matchFiles gs ms).extraFiles) := by
  refine ⟨?_, ?_, ?_⟩
  · -- golden records
    intro g hg hex
    have hgf : g ∈ gs.filter (fun d => !isExcluded d.filePath) :=
      List.mem_filter.mpr ⟨hg, by simp [hex]⟩
    cases hl : migLookup (ms.filter (fun d => !isExcluded d.filePath))
        (normalizePath g.filePath) with
    | some m =>
      left
      constructor
      · refine ⟨m, ?_⟩
        rw [matchFiles_matched]
        exact List.mem_filterMap.mpr ⟨g, hgf, by simp [hl]⟩
      · intro hmem
        rw [matchFiles_missed] at hmem
        have := (List.mem_filter.mp hmem).2
        simp [hl] at this
    | none =>
      right
      constructor
      · rw [matchFiles_missed]
        exact List.mem_filter.mpr ⟨hgf, by simp [hl]⟩
      · intro m hmem
        rw [matchFiles_matched] at hmem
        obtain ⟨g', hg', heq⟩ := List.mem_filterMap.mp hmem
        obtain ⟨m', hm', hpair⟩ := Option.map_eq_some'.mp heq
        have hg'g : g' = g := congrArg Prod.fst hpair
        rw [hg'g] at hm'
        rw [hl] at hm'
        exact Option.noConfusion hm'
  · -- candidate records, assuming distinct normalized candidate paths
    intro hnd c hc hex
    have hcf : c ∈ ms.filter (fun d => !isExcluded d.filePath) :=
      List.mem_filter.mpr ⟨hc, by simp [hex]⟩
    by_cases hp : normalizePath c.filePath ∈ matchedPaths gs ms
    · left
      obtain ⟨g₀, hg₀, hpath⟩ := List.mem_map.mp hp
      have hg₀f := (List.mem_filter.mp hg₀).1
      have hlc : migLookup (ms.filter (fun d => !isExcluded d.filePath))
          (normalizePath c.filePath) = some c := migLookup_self _ c hnd hcf
      constructor
      · refine ⟨g₀, ?_⟩
        rw [matchFiles_matched]
        refine List.mem_filterMap.mpr ⟨g₀, hg₀f, ?_⟩
        rw [hpath, hlc]
        rfl
      · intro hmem
        rw [matchFiles_extra] at hmem
        have := (List.mem_filter.mp hmem).2
        simp only [decide_eq_true_eq] at this
        exact this hp
    · right
      constructor
      · rw [matchFiles_extra]
        exact List.mem_filter.mpr ⟨hcf, by simp [hp]⟩
      · intro g hmem
        rw [matchFiles_matched] at hmem
        obtain ⟨g', hg', heq⟩ := List.mem_filterMap.mp hmem
        obtain ⟨m', hm', hpair⟩ := Option.map_eq_some'.mp heq
        have hg'g : g' = g := congrArg Prod.fst hpair
        have hm'c : m' = c := congrArg Prod.snd hpair
        rw [hg'g, hm'c] at hm'
        have hcp : normalizePath c.filePath = normalizePath g.filePath :=
          (migLookup_eq_some _ _ _ hm').2
        apply hp
        rw [hcp]
        rw [hg'g] at hg'
        refine List.mem_map.mpr ⟨g, ?_, rfl⟩
        refine List.mem_filter.mpr ⟨hg', ?_⟩
        simp [hm']
  · -- excluded records appear nowhere
    intro r hexc
    refine ⟨?_, ?_, ?_⟩
    · intro pr hpr
      rw [matchFiles_matched] at hpr
      obtain ⟨g', hg', heq⟩ := List.mem_filterMap.mp hpr
      obtain ⟨m', hm', hpair⟩ := Option.map_eq_some'.mp heq
      have hgex : isExcluded g'.filePath = false := by
        have := (List.mem_filter.mp hg').2
        simpa using this
      have hmmem := (migLookup_eq_some _ _ _ hm').1
      have hmex : isExcluded m'.filePath = false := by
        have := (List.mem_filter.mp hmmem).2
        simpa using this
      constructor
      · intro h1
        rw [← hpair] at h1
        simp only at h1
        rw [h1] at hgex
        rw [hgex] at hexc
        exact Bool.noConfusion hexc
      · intro h2
        rw [← hpair] at h2
        simp only at h2
        rw [h2] at hmex
        rw [hmex] at hexc
        exact Bool.noConfusion hexc
    · intro hmem
      rw [matchFiles_missed] at hmem
      have := (List.mem_filter.mp ((List.mem_filter.mp hmem).1)).2
      rw [hexc] at this
      simp at this
    · intro hmem
      rw [matchFiles_extra] at hmem
      have := (List.mem_filter.mp ((List.mem_filter.mp hmem).1)).2
      rw [hexc] at this
      simp at this

/-- Witness for `C3_match_partition` at a concrete input: one golden and one
candidate record for path `f` land in `matched`. -/
theorem C3_match_partition_witness :
    ((∃ m, (cexG, m) ∈ (matchFiles [cexG] [cexM2]).matched)
      ∧ cexG ∉ (matchFiles [cexG] [cexM2]).missedFiles)
  ∨ (cexG ∈ (matchFiles [cexG] [cexM2]).missedFiles
      ∧ ∀ m, (cexG, m) ∉ (matchFiles [cexG] [cexM2]).matched) :=
  (C3_match_partition [cexG] [cexM2]).1 cexG (by decide) (by decide)

/-! ## Noise scanner — `src/scoring/noise-detector.ts`

The five fixed regexes over added lines are implemented character for
character: `\b` is a word-boundary test, `\s*` a whitespace skip. -/

/-- A regex here is a matcher `previous character → remaining input → Bool`
tried at every position of the line. -/
def scanFrom (f : Option Char → List Char → Bool) : Option Char → List Char → Bool
  | prev, [] => f prev []
  | prev, c :: cs => f prev (c :: cs) || scanFrom f (some c) cs

/-- `re.test(s)`: try the matcher at every position. -/
def testRe (f : Option Char → List Char → Bool) (s : String) : Bool :=
  scanFrom f none s.data

/-- The left word boundary `\b`: start of string or a non-word character. -/
def leftBdry : Option Char → Bool
  | none => true
  | some c => !isWordChar c

/-- The right word boundary `\b`: end of string or a non-word character. -/
def rightBdry : List Char → Bool
  | [] => true
  | c :: _ => !isWordChar c

/-- `/\bLIT\b/` — a literal with word boundaries on both sides. -/
def reWordBoth (w : String) (prev : Option Char) (cs : List Char) : Bool :=
  leftBdry prev &&
    (match stripChars w.data cs with
     | some rest => rightBdry rest
     | none => false)

/-- `/\bLIT/` — a literal with a left word boundary only
(used for `console.log(`, whose final char is not a word char). -/
def reWordLeft (w : String) (prev : Option Char) (cs : List Char) : Bool :=
  leftBdry prev && (stripChars w.data cs).isSome

/-- `/\/\/\s*LIT\b/` — a line comment, optional whitespace, then a literal
with a right word boundary. -/
def reSlashComment (w : String) (_prev : Option Char) (cs : List Char) : Bool :=
  match stripChars ['/', '/'] cs with
  | some r =>
    match stripChars w.data (r.dropWhile isJsWs) with
    | some r2 => rightBdry r2
    | none => false
  | none => false

/-- `ARTIFACT_PATTERNS` from `noise-detector.ts`. -/
def ARTIFACT_PATTERNS : List (Option Char → List Char → Bool) :=
  [reWordLeft "console.log(", reWordLeft "console.debug(",
   reSlashComment "TODO", reSlashComment "@ts-ignore", reWordBoth "debugger"]

/-- `PLACEHOLDER_PATTERNS` from `noise-detector.ts`. -/
def PLACEHOLDER_PATTERNS : List (Option Char → List Char → Bool) :=
  [reWordBoth "t_temp_dev_tbd", reWordBoth "TEMP_PLACEHOLDER",
   reWordBoth "PLACEHOLDER", reWordBoth "FIXME", reWordBoth "HACK",
   reWordBoth "XXX"]

/-- `NoiseDetectorInput` from `noise-detector.ts`. -/
structure NoiseDetectorInput where
  matchResult : MatchResult
  migrationDiffs : List FileDiff
  detectionResults : List DetectionResult

/-- `content.replace(/\s+/g, '')` — discard every whitespace character. -/
def stripWs (s : String) : String := String.mk (s.data.filter (fun c => !isJsWs c))

/-- Lexicographic comparison of character lists (the default JS string
sort order; all inputs of interest are ASCII). -/
def lexLe : List Char → List Char → Bool
  | [], _ => true
  | _ :: _, [] => false
  | a :: as, b :: bs => if a < b then true else if b < a then false else lexLe as bs

/-- `a <= b` on strings. -/
def strLexLe (a b : String) : Bool := lexLe a.data b.data

/-- Ordered insertion into a sorted list of strings. -/
def insertSorted (a : String) : List String → List String
  | [] => [a]
  | b :: bs => if strLexLe a b then a :: b :: bs else b :: insertSorted a bs

/-- `[...].sort()` on strings; the sorted sequence of a list under a total
antisymmetric order is unique, so insertion sort agrees with JS `sort`. -/
def sortStrs (l : List String) : List String := l.foldr insertSorted []

/-- `isFormattingOnly` from `noise-detector.ts`: the added and removed
lines, each stripped of all whitespace, are equal as multisets (length
check plus sorted element-wise comparison). -/
def isFormattingOnly (diff : FileDiff) : Bool :=
  let removedNormalized := diff.removedLines.map (fun l => jsTrim (stripWs l.content))
  let addedNormalized := diff.addedLines.map (fun l => jsTrim (stripWs l.content))
  removedNormalized.length == addedNormalized.length &&
    sortStrs removedNormalized == sortStrs addedNormalized

/-- `detectUnnecessaryChanges` from `noise-detector.ts`. -/
def detectUnnecessaryChanges (matchResult : MatchResult) : List NoiseInstance :=
  matchResult.extraFiles.map (fun diff =>
    { type := .unnecessary_change, file := diff.filePath
      description := "File changed in migration but not in golden PR"
      penalty := 0.01 })

/-- The formatting-only Noise Instance for a file path. -/
def formattingInstanceFor (diff : FileDiff) : NoiseInstance :=
  { type := .formatting_only, file := diff.filePath
    description := "Changes appear to be formatting/whitespace only"
    penalty := 0.02 }

/-- The per-record body of the `detectFormattingOnlyChanges` loop. -/
def formattingEmit (matchResult : MatchResult) (diff : FileDiff) : Option NoiseInstance :=
  if !decide (diff.filePath ∈ matchResult.matched.map (fun pr => pr.2.filePath)) then none
  else if diff.addedLines.length == 0 && diff.removedLines.length == 0 then none
  else if isFormattingOnly diff then some (formattingInstanceFor diff)
  else none

/-- `detectFormattingOnlyChanges` from `noise-detector.ts`. -/
def detectFormattingOnlyChanges (migrationDiffs : List FileDiff)
    (matchResult : MatchResult) : List NoiseInstance :=
  migrationDiffs.filterMap (formattingEmit matchResult)

/-- `detectIncorrectMigrations` from `noise-detector.ts`. -/
def detectIncorrectMigrations (results : List DetectionResult) : List NoiseInstance :=
  (results.filter (fun r => r.status = .INCORRECT)).map (fun r =>
    { type := .incorrect_migration, file := r.patternId
      description := "Incorrect migration for pattern: " ++ r.message
      penalty := 0.03 })

/-- `detectArtifacts` from `noise-detector.ts`: one instance per added line
matching any artifact pattern (`break` caps it at one per line). -/
def detectArtifacts (migrationDiffs : List FileDiff) : List NoiseInstance :=
  migrationDiffs.flatMap (fun diff =>
    diff.addedLines.filterMap (fun line =>
      if ARTIFACT_PATTERNS.any (fun pat => testRe pat line.content) then
        some { type := .artifact, file := diff.filePath, line := some line.lineNumber
               description := "Artifact detected: " ++ jsTrim line.content
               penalty := 0.05 }
      else none))

/-- `detectPlaceholderTokens` from `noise-detector.ts`. -/
def detectPlaceholderTokens (migrationDiffs : List FileDiff) : List NoiseInstance :=
  migrationDiffs.flatMap (fun diff =>
    diff.addedLines.filterMap (fun line =>
      if PLACEHOLDER_PATTERNS.any (fun pat => testRe pat line.content) then
        some { type := .placeholder_token, file := diff.filePath, line := some line.lineNumber
               description := "Placeholder token detected: " ++ jsTrim line.content
               penalty := 0.05 }
      else none))

/-- `detectNoise` from `noise-detector.ts`: the five scans concatenated. -/
def detectNoise (input : NoiseDetectorInput) : List NoiseInstance :=
  detectUnnecessaryChanges input.matchResult
  ++ detectFormattingOnlyChanges input.migrationDiffs input.matchResult
  ++ detectIncorrectMigrations input.detectionResults
  ++ detectArtifacts input.migrationDiffs
  ++ detectPlaceholderTokens input.migrationDiffs

/-! ## Lemmas about the formatting-only scan -/

theorem insertSorted_length (a : String) (l : List String) :
    (insertSorted a l).length = l.length + 1 := by
  induction l with
  | nil => simp [insertSorted]
  | cons b bs ih =>
    rw [insertSorted]
    by_cases h : strLexLe a b
    · simp [h]
    · simp [h, ih]

theorem sortStrs_length (l : List String) : (sortStrs l).length = l.length := by
  induction l with
  | nil => rfl
  | cons a as ih =>
    simp only [sortStrs, List.foldr_cons] at ih ⊢
    rw [insertSorted_length, ih, List.length_cons]

theorem isFormattingOnly_eq_sortedEq (d : FileDiff) :
    isFormattingOnly d
    = (sortStrs (d.removedLines.map (fun l => jsTrim (stripWs l.content)))
       == sortStrs (d.addedLines.map (fun l => jsTrim (stripWs l.content)))) := by
  rw [isFormattingOnly]
  cases hs : (sortStrs (d.removedLines.map (fun l => jsTrim (stripWs l.content)))
      == sortStrs (d.addedLines.map (fun l => jsTrim (stripWs l.content)))) with
  | false => simp [hs]
  | true =>
    have heq : sortStrs (d.removedLines.map (fun l => jsTrim (stripWs l.content)))
        = sortStrs (d.addedLines.map (fun l => jsTrim (stripWs l.content))) :=
      eq_of_beq hs
    have hlen : (d.removedLines.map (fun l => jsTrim (stripWs l.content))).length
        = (d.addedLines.map (fun l => jsTrim (stripWs l.content))).length := by
      rw [← sortStrs_length (d.removedLines.map (fun l => jsTrim (stripWs l.content))),
        ← sortStrs_length (d.addedLines.map (fun l => jsTrim (stripWs l.content))), heq]
    simp [hs, hlen]

theorem filterMap_guard {α β : Type _} (p : α → Bool) (f : α → β) (l : List α) :
    l.filterMap (fun a => if p a then some (f a) else none) = (l.filter p).map f := by
  induction l with
  | nil => rfl
  | cons a as ih =>
    by_cases h : p a
    · simp [List.filterMap_cons, List.filter_cons, h, ih]
    · simp [List.filterMap_cons, List.filter_cons, h, ih]

theorem formattingEmit_eq (mr : MatchResult) (d : FileDiff) :
    formattingEmit mr d
    = (if (decide (d.filePath ∈ mr.matched.map (fun pr => pr.2.filePath))
        && !(d.addedLines.length == 0 && d.removedLines.length == 0)
        && (sortStrs (d.removedLines.map (fun l => jsTrim (stripWs l.content)))
            == sortStrs (d.addedLines.map (fun l => jsTrim (stripWs l.content)))))
      then some (formattingInstanceFor d) else none) := by
  rw [formattingEmit, isFormattingOnly_eq_sortedEq]
  cases hmem : decide (d.filePath ∈ mr.matched.map (fun pr => pr.2.filePath)) with
  | false => simp
  | true =>
    cases hempty : (d.addedLines.length == 0 && d.removedLines.length == 0) with
    | true => simp [hempty]
    | false =>
      cases hsort : (sortStrs (d.removedLines.map (fun l => jsTrim (stripWs l.content)))
          == sortStrs (d.addedLines.map (fun l => jsTrim (stripWs l.content)))) with
      | true => simp [hempty, hsort]
      | false => simp [hempty, hsort]

/-- **C7 (amended).** The formatting-only scan emits exactly one
`formatting_only` instance (penalty 0.02) for each candidate record that is
matched, has at least one added or removed line, and whose added-line and
removed-line sets are equal after discarding all whitespace and sorting —
and no instance for any other record; in particular records differing after
whitespace removal never match the rule, and neither do empty records. -/
theorem C7_formatting_only_rule (migs : List FileDiff) (mr : MatchResult) :
    detectFormattingOnlyChanges migs mr
    = (migs.filter (fun d =>
        decide (d.filePath ∈ mr.matched.map (fun pr => pr.2.filePath))
        && !(d.addedLines.length == 0 && d.removedLines.length == 0)
        && (sortStrs (d.removedLines.map (fun l => jsTrim (stripWs l.content)))
            == sortStrs (d.addedLines.map (fun l => jsTrim (stripWs l.content)))))).map
        formattingInstanceFor
  ∧ ∀ d : FileDiff, (formattingInstanceFor d).type = NoiseType.formatting_only
      ∧ (formattingInstanceFor d).penalty = 0.02 := by
  constructor
  · rw [detectFormattingOnlyChanges]
    have : (formattingEmit mr) = fun d =>
        (if (decide (d.filePath ∈ mr.matched.map (fun pr => pr.2.filePath))
          && !(d.addedLines.length == 0 && d.removedLines.length == 0)
          && (sortStrs (d.removedLines.map (fun l => jsTrim (stripWs l.content)))
              == sortStrs (d.addedLines.map (fun l => jsTrim (stripWs l.content)))))
        then some (formattingInstanceFor d) else none) :=
      funext (formattingEmit_eq mr)
    rw [this, filterMap_guard]
  · intro d
    exact ⟨rfl, rfl⟩

/-- **C7 counterexample.** A matched candidate record with no added and no
removed lines has equal (empty) whitespace-stripped sorted line sets, yet
the scan emits no `formatting_only` instance for it — the code skips empty
records, which the claim as stated does not allow. -/
theorem C7_formatting_only_counterexample :
    (matchFiles [cexG] [cexG]).matched.map (fun pr => pr.2.filePath) = ["f"]
  ∧ sortStrs (cexG.removedLines.map (fun l => jsTrim (stripWs l.content)))
      = sortStrs (cexG.addedLines.map (fun l => jsTrim (stripWs l.content)))
  ∧ detectFormattingOnlyChanges [cexG] (matchFiles [cexG] [cexG]) = [] := by
  refine ⟨by decide, by decide, by decide⟩

/-- **C5 (amended).** In the pipeline (`matchFiles` output plus the full
candidate list), every `unnecessary_change` or `formatting_only` Noise
Instance concerns a non-excluded file: those two scans see only records
that survived the matcher's exclusion filter.  (The artifact and
placeholder-token sweeps, by contrast, run over the full candidate list —
see the counterexample.) -/
theorem C5_excluded_files_noise (gs ms : List FileDiff) (dets : List DetectionResult) :
    ∀ inst ∈ detectNoise ⟨matchFiles gs ms, ms, dets⟩,
      (inst.type = NoiseType.unnecessary_change ∨ inst.type = NoiseType.formatting_only) →
      isExcluded inst.file = false := by
  intro inst hmem htype
  rw [detectNoise] at hmem
  simp only [List.mem_append] at hmem
  rcases hmem with ((((h1 | h2) | h3) | h4) | h5)
  · -- unnecessary_change instances come from extraFiles
    rw [detectUnnecessaryChanges] at h1
    obtain ⟨d, hd, rfl⟩ := List.mem_map.mp h1
    rw [matchFiles_extra] at hd
    have := (List.mem_filter.mp (List.mem_filter.mp hd).1).2
    simpa using this
  · -- formatting_only instances come from matched migration records
    rw [detectFormattingOnlyChanges] at h2
    obtain ⟨d, _, hemit⟩ := List.mem_filterMap.mp h2
    rw [formattingEmit_eq] at hemit
    by_cases hcond : (decide (d.filePath ∈ (matchFiles gs ms).matched.map
          (fun pr => pr.2.filePath))
        && !(d.addedLines.length == 0 && d.removedLines.length == 0)
        && (sortStrs (d.removedLines.map (fun l => jsTrim (stripWs l.content)))
            == sortStrs (d.addedLines.map (fun l => jsTrim (stripWs l.content))))) = true
    · rw [if_pos hcond] at hemit
      have hpath : d.filePath ∈ (matchFiles gs ms).matched.map (fun pr => pr.2.filePath) := by
        have := (Bool.and_eq_true _ _).mp ((Bool.and_eq_true _ _).mp hcond).1
        exact of_decide_eq_true this.1
      obtain ⟨pr, hpr, hfile⟩ := List.mem_map.mp hpath
      rw [matchFiles_matched] at hpr
      obtain ⟨g', _, heq⟩ := List.mem_filterMap.mp hpr
      obtain ⟨m', hm', hpair⟩ := Option.map_eq_some'.mp heq
      have hmmem := (migLookup_eq_some _ _ _ hm').1
      have hmex : isExcluded m'.filePath = false := by
        have := (List.mem_filter.mp hmmem).2
        simpa using this
      have hsnd : pr.2 = m' := by rw [← hpair]
      have : inst = formattingInstanceFor d := (Option.some.inj hemit).symm
      rw [this]
      show isExcluded d.filePath = false
      rw [← hfile, hsnd]
      exact hmex
    · rw [if_neg hcond] at hemit
      exact Option.noConfusion hemit
  · -- incorrect_migration instances have a different type
    rw [detectIncorrectMigrations] at h3
    obtain ⟨r, _, rfl⟩ := List.mem_map.mp h3
    rcases htype with h | h <;> exact NoiseType.noConfusion h
  · -- artifact instances have a different type
    rw [detectArtifacts] at h4
    simp only [List.mem_flatMap, List.mem_filterMap] at h4
    obtain ⟨d, _, line, _, hline⟩ := h4
    by_cases hc : (ARTIFACT_PATTERNS.any fun pat => testRe pat line.content) = true
    · rw [if_pos hc] at hline
      have := Option.some.inj hline
      rw [← this] at htype
      rcases htype with h | h <;> exact NoiseType.noConfusion h
    · rw [if_neg hc] at hline
      exact Option.noConfusion hline
  · -- placeholder_token instances have a different type
    rw [detectPlaceholderTokens] at h5
    simp only [List.mem_flatMap, List.mem_filterMap] at h5
    obtain ⟨d, _, line, _, hline⟩ := h5
    by_cases hc : (PLACEHOLDER_PATTERNS.any fun pat => testRe pat line.content) = true
    · rw [if_pos hc] at hline
      have := Option.some.inj hline
      rw [← this] at htype
      rcases htype with h | h <;> exact NoiseType.noConfusion h
    · rw [if_neg hc] at hline
      exact Option.noConfusion hline

/-- The `unnecessary_change` instance for path `f`, used by the C5 witness. -/
def unnecInstF : NoiseInstance :=
  { type := .unnecessary_change, file := "f", line := none
    description := "File changed in migration but not in golden PR"
    penalty := 0.01 }

/-- Witness for `C5_excluded_files_noise`: a candidate-only record for the
non-excluded path `f` yields an `unnecessary_change` instance, whose file is
indeed not excluded. -/
theorem C5_excluded_files_noise_witness : isExcluded "f" = false := by
  have hextra : (matchFiles [] [cexM1]).extraFiles = [cexM1] := by decide
  have h1 : detectUnnecessaryChanges (matchFiles [] [cexM1]) = [unnecInstF] := by
    simp only [detectUnnecessaryChanges]
    rw [hextra]
    simp [cexM1, unnecInstF]
  have hmem : unnecInstF ∈ detectNoise ⟨matchFiles [] [cexM1], [cexM1], []⟩ := by
    rw [detectNoise]
    simp only [List.mem_append]
    left; left; left; left
    rw [h1]
    exact List.mem_singleton.mpr rfl
  exact C5_excluded_files_noise [] [cexM1] [] unnecInstF hmem (Or.inl rfl)

/-- A candidate record for an excluded lockfile path whose added line is a
debug print. -/
def lockD : FileDiff := ⟨"yarn.lock", none, [⟨1, "console.log(x)"⟩], [], [], false, false⟩

/-- The artifact instance the sweep produces for the excluded lockfile. -/
def artifactInstLock : NoiseInstance :=
  { type := .artifact, file := "yarn.lock", line := some 1
    description := "Artifact detected: console.log(x)"
    penalty := 0.05 }

/-- **C5 counterexample.** The excluded candidate record `yarn.lock` is
dropped by the matcher, yet the artifact sweep still produces a Noise
Instance for it: excluded files do participate in noise scoring. -/
theorem C5_excluded_files_noise_counterexample :
    isExcluded lockD.filePath = true
  ∧ detectNoise ⟨matchFiles [] [lockD], [lockD], []⟩ = [artifactInstLock] := by
  constructor
  · decide
  · have h1 : detectUnnecessaryChanges (matchFiles [] [lockD]) = [] := by
      have hextra : (matchFiles [] [lockD]).extraFiles = [] := by decide
      simp only [detectUnnecessaryChanges]
      rw [hextra]
      rfl
    have h2 : detectFormattingOnlyChanges [lockD] (matchFiles [] [lockD]) = [] := by decide
    have h3 : detectIncorrectMigrations [] = [] := rfl
    have h4 : detectArtifacts [lockD] = [artifactInstLock] := by
      have hpat : reWordLeft "console.log(" ∈ ARTIFACT_PATTERNS := by
        simp [ARTIFACT_PATTERNS]
      have hex : ∃ x ∈ ARTIFACT_PATTERNS, testRe x "console.log(x)" = true :=
        ⟨reWordLeft "console.log(", hpat, by decide⟩
      have hdesc : "Artifact detected: " ++ jsTrim "console.log(x)"
          = "Artifact detected: console.log(x)" := by decide
      simp [detectArtifacts, lockD, hex, hdesc, artifactInstLock]
    have h5 : detectPlaceholderTokens [lockD] = [] := by decide
    rw [detectNoise]
    simp only [h1, h2, h3, h4, h5]
    rfl

/-! ## Theme-dark-removal detector —
`src/eval/approach1/src/patterns/theme-dark-removal.ts`

`THEME_DARK_RE` is
`/theme\s*=\s*(?:"dark"|{'dark'}|'dark'|\{['"]dark['"]\}|\{ThemeVariant\.dark\})/`;
quotes and braces appear below as character codes (34 `"`, 39 `'`,
123 `{`, 125 `}`). -/

/-- A single or double quote (`['"]`). -/
def quoteCh (c : Char) : Bool := c = Char.ofNat 34 || c = Char.ofNat 39

/-- The characters of `dark`. -/
def darkChars : List Char := "dark".data

/-- The alternation after `theme\s*=\s*`: `"dark"`, a brace-quoted `dark`
(covering both the `{'dark'}` and `\{['"]dark['"]\}` alternatives), `'dark'`,
or `{ThemeVariant.dark}`. -/
def themeDarkAlt (cs : List Char) : Bool :=
  (stripChars (Char.ofNat 34 :: darkChars ++ [Char.ofNat 34]) cs).isSome
  || (match cs with
      | b1 :: q1 :: rest =>
        b1 = Char.ofNat 123 && quoteCh q1 &&
          (match stripChars darkChars rest with
           | some (q2 :: b2 :: _) => quoteCh q2 && b2 = Char.ofNat 125
           | _ => false)
      | _ => false)
  || (stripChars (Char.ofNat 39 :: darkChars ++ [Char.ofNat 39]) cs).isSome
  || (stripChars (Char.ofNat 123 :: "ThemeVariant.dark".data ++ [Char.ofNat 125]) cs).isSome

/-- Match `THEME_DARK_RE` anchored at the current position. -/
def themeDarkAt (cs : List Char) : Bool :=
  match stripChars "theme".data cs with
  | some r1 =>
    (match r1.dropWhile isJsWs with
     | c :: r2 => c = '=' && themeDarkAlt (r2.dropWhile isJsWs)
     | [] => false)
  | none => false

/-- Try the pattern at every position. -/
def themeDarkScan : List Char → Bool
  | [] => themeDarkAt []
  | c :: cs => themeDarkAt (c :: cs) || themeDarkScan cs

/-- `THEME_DARK_RE.test(s)`. -/
def testThemeDark (s : String) : Bool := themeDarkScan s.data

/-- `hasThemeDark` from `theme-dark-removal.ts`. -/
def hasThemeDark (lines : List DiffLine) : Bool :=
  lines.any (fun l => testThemeDark l.content)

/-- `detect` from `theme-dark-removal.ts`. -/
def themeDarkDetect (goldenDiff : FileDiff) (migrationDiff : Option FileDiff) :
    DetectionResult :=
  if !hasThemeDark goldenDiff.removedLines then
    ⟨"theme-dark-removal", .NOT_APPLICABLE, "No theme=\"dark\" removal in golden diff", none⟩
  else
    match migrationDiff with
    | none => ⟨"theme-dark-removal", .FILE_MISSING, "Migration file is missing", none⟩
    | some m =>
      if hasThemeDark m.removedLines then
        if hasThemeDark m.addedLines then
          ⟨"theme-dark-removal", .INCORRECT,
            "theme=\"dark\" was removed but re-added in migration", none⟩
        else
          ⟨"theme-dark-removal", .CORRECT, "theme=\"dark\" prop correctly removed", none⟩
      else
        ⟨"theme-dark-removal", .MISSING,
          "theme=\"dark\" prop removal not found in migration", none⟩

/-- The registered `PatternDefinition` of the detector. -/
def themeDarkPattern : PatternDefinition :=
  { id := "theme-dark-removal", name := "Theme Dark Removal"
    complexity := .trivial, weight := 1
    description := "Detects removal of theme=\"dark\" prop"
    detect := fun g m _ _ => themeDarkDetect g m }

/-- **C6.** The theme-dark detector judges applicability on the golden record
alone: no `theme="dark"` occurrence in the golden removed lines gives
`NOT_APPLICABLE` for every candidate; with the golden removing
`theme="dark"`, a present candidate record showing no change gives
`MISSING`, and a candidate that removes it but re-adds it in its added
lines gives `INCORRECT`. -/
theorem C6_theme_dark_outcomes (g m : FileDiff) (mo : Option FileDiff) :
    (hasThemeDark g.removedLines = false →
      (themeDarkDetect g mo).status = DetectionStatus.NOT_APPLICABLE)
  ∧ (hasThemeDark g.removedLines = true → m.addedLines = [] → m.removedLines = [] →
      (themeDarkDetect g (some m)).status = DetectionStatus.MISSING)
  ∧ (hasThemeDark g.removedLines = true → hasThemeDark m.removedLines = true →
      hasThemeDark m.addedLines = true →
      (themeDarkDetect g (some m)).status = DetectionStatus.INCORRECT) := by
  refine ⟨?_, ?_, ?_⟩
  · intro h
    simp [themeDarkDetect, h]
  · intro hg hadd hrem
    have hm : hasThemeDark m.removedLines = false := by
      rw [hrem]
      rfl
    simp [themeDarkDetect, hg, hm]
  · intro hg hrem hadd
    simp [themeDarkDetect, hg, hrem, hadd]

/-- A golden record that removes `theme="dark"`. -/
def goldenThemeDark : FileDiff :=
  ⟨"t.tsx", none, [⟨1, "<Page>"⟩], [⟨1, "<Page theme=\"dark\">"⟩], [], false, false⟩

/-- A present candidate record for the same file with no changes at all. -/
def emptyCandidate : FileDiff := ⟨"t.tsx", none, [], [], [], false, false⟩

/-- Witness for `C6_theme_dark_outcomes`: golden removes `theme="dark"`, the
candidate record is present but changes nothing — the outcome is `MISSING`. -/
theorem C6_theme_dark_outcomes_witness :
    (themeDarkDetect goldenThemeDark (some emptyCandidate)).status
      = DetectionStatus.MISSING :=
  (C6_theme_dark_outcomes goldenThemeDark emptyCandidate none).2.1
    (by decide) rfl rfl

/-! ## Diff parser — `src/input/diff-parser.ts`

The source splits each chunk's lines, joins them with `'\n'` into a chunk
string, and `parseFileChunk` immediately re-splits; since split pieces
contain no newline the round trip is the identity, so chunks are passed as
line lists here. -/

/-- The `\ No newline at end of file` marker line. -/
def noNewlineMarker : String := "\\ No newline at end of file"

/-- An ASCII digit. -/
def isDigitCh (c : Char) : Bool := Char.ofNat 48 ≤ c && c ≤ Char.ofNat 57

/-- `parseInt(digits, 10)`. -/
def digitsToNat (ds : List Char) : Nat := ds.foldl (fun n c => n * 10 + (c.toNat - 48)) 0

/-- The optional `(?:,(\d+))?` group of the hunk-header regex: absent when
the next character is not a comma; a comma not followed by digits makes the
whole header fail. -/
def optCount (cs : List Char) : Option (Option Nat × List Char) :=
  match cs with
  | c :: rest =>
    if c = ',' then
      let ds := rest.takeWhile isDigitCh
      if ds.isEmpty then none
      else some (some (digitsToNat ds), rest.dropWhile isDigitCh)
    else some (none, cs)
  | [] => some (none, [])

/-- `line.match(/^@@ -(\d+)(?:,(\d+))? \+(\d+)(?:,(\d+))? @@/)` returning
`(oldStart, oldCount, newStart, newCount)`, missing counts defaulting to 1. -/
def parseHunkHeader (line : String) : Option (Nat × Nat × Nat × Nat) :=
  match stripChars "@@ -".data line.data with
  | none => none
  | some r1 =>
    let osDs := r1.takeWhile isDigitCh
    if osDs.isEmpty then none
    else
      match optCount (r1.dropWhile isDigitCh) with
      | none => none
      | some (oc, r3) =>
        match stripChars " +".data r3 with
        | none => none
        | some r4 =>
          let nsDs := r4.takeWhile isDigitCh
          if nsDs.isEmpty then none
          else
            match optCount (r4.dropWhile isDigitCh) with
            | none => none
            | some (nc, r6) =>
              match stripChars " @@".data r6 with
              | none => none
              | some _ =>
                some (digitsToNat osDs, oc.getD 1, digitsToNat nsDs, nc.getD 1)

/-- Which lines the hunk-collection loop records into `currentHunk.lines`. -/
def hunkBodyKeep (l : String) : Bool :=
  (charsPre "+".data l.data && !charsPre "+++".data l.data)
  || (charsPre "-".data l.data && !charsPre "---".data l.data)
  || charsPre " ".data l.data
  || l = noNewlineMarker

/-- The hunk-collection loop of `parseFileChunk`. -/
def collectHunksAux : List String → Option DiffHunk → List DiffHunk → List DiffHunk
  | [], cur, acc =>
    (match cur with
     | some h => acc ++ [h]
     | none => acc)
  | l :: ls, cur, acc =>
    match parseHunkHeader l with
    | some (os, oc, nst, nc) =>
      collectHunksAux ls (some ⟨os, oc, nst, nc, [l]⟩)
        (match cur with
         | some h => acc ++ [h]
         | none => acc)
    | none =>
      match cur with
      | none => collectHunksAux ls none acc
      | some h =>
        collectHunksAux ls
          (some (if hunkBodyKeep l then { h with lines := h.lines ++ [l] } else h)) acc

/-- `collectHunks` over a chunk's lines. -/
def collectHunks (lines : List String) : List DiffHunk := collectHunksAux lines none []

/-- The running state of the added/removed extraction loop: the two line
counters and the two output lists. -/
structure ExtractState where
  oldLineNum : Nat
  newLineNum : Nat
  added : List DiffLine
  removed : List DiffLine
deriving DecidableEq, Repr

/-- One line of the extraction loop of `parseFileChunk`. -/
def extractStep (st : ExtractState) (l : String) : ExtractState :=
  if charsPre "@@".data l.data then st
  else if l = noNewlineMarker then st
  else if charsPre "+".data l.data then
    { st with added := st.added ++ [⟨st.newLineNum, String.mk (l.data.drop 1)⟩]
              newLineNum := st.newLineNum + 1 }
  else if charsPre "-".data l.data then
    { st with removed := st.removed ++ [⟨st.oldLineNum, String.mk (l.data.drop 1)⟩]
              oldLineNum := st.oldLineNum + 1 }
  else if charsPre " ".data l.data then
    { st with oldLineNum := st.oldLineNum + 1, newLineNum := st.newLineNum + 1 }
  else st

/-- Extraction over one hunk: counters initialized from the header's
`oldStart`/`newStart`, output lists carried over. -/
def extractHunk (acc : List DiffLine × List DiffLine) (h : DiffHunk) :
    List DiffLine × List DiffLine :=
  let st := h.lines.foldl extractStep ⟨h.oldStart, h.newStart, acc.1, acc.2⟩
  (st.added, st.removed)

/-- Extraction over all hunks of a chunk, in order. -/
def extractAll (hunks : List DiffHunk) : List DiffLine × List DiffLine :=
  hunks.foldl extractHunk ([], [])

/-- `stripABPrefix` from `diff-parser.ts`. -/
def stripAB (p : String) : String :=
  if charsPre "a/".data p.data || charsPre "b/".data p.data
  then String.mk (p.data.drop 2) else p

/-- `parseGitDiffPaths` from `diff-parser.ts`: split the text after
`diff --git ` at the first `" b/"`, falling back to a naive space split. -/
def parseGitDiffPaths (gitDiffLine : String) : String × String :=
  let withoutPre := String.mk (gitDiffLine.data.drop 11)
  match charsIdxOf " b/".data withoutPre.data with
  | none =>
    let parts := splitSp withoutPre
    (stripAB (parts.headD ""), stripAB (parts.getLastD ""))
  | some bIndex =>
    (stripAB (String.mk (withoutPre.data.take bIndex)),
     stripAB (String.mk (withoutPre.data.drop (bIndex + 1))))

/-- `parseFileChunk` from `diff-parser.ts`, over the chunk's lines. -/
def parseFileChunk (lines : List String) : Option FileDiff :=
  match lines.find? (fun l => charsPre "diff --git ".data l.data) with
  | none => none
  | some gitDiffLine =>
    if lines.any (fun l => charsPre "Binary files ".data l.data
        || charsInfix "GIT binary patch".data l.data) then
      let paths := parseGitDiffPaths gitDiffLine
      some ⟨paths.2, if paths.1 ≠ paths.2 then some paths.1 else none,
        [], [], [], true, decide (paths.1 ≠ paths.2)⟩
    else
      let renameLine := lines.find? (fun l => charsPre "rename from ".data l.data)
      let renameToLine := lines.find? (fun l => charsPre "rename to ".data l.data)
      let hunks := collectHunks lines
      let ext := extractAll hunks
      match renameLine, renameToLine with
      | some rf, some rt =>
        some ⟨String.mk (rt.data.drop 10), some (String.mk (rf.data.drop 12)),
          ext.1, ext.2, hunks, false, true⟩
      | _, _ =>
        let minusLine := lines.find? (fun l => charsPre "--- ".data l.data)
        let plusLine := lines.find? (fun l => charsPre "+++ ".data l.data)
        let filePath :=
          match plusLine with
          | some pl =>
            if pl ≠ "+++ /dev/null" then stripAB (String.mk (pl.data.drop 4))
            else
              match minusLine with
              | some ml =>
                if ml ≠ "--- /dev/null" then stripAB (String.mk (ml.data.drop 4))
                else (parseGitDiffPaths gitDiffLine).2
              | none => (parseGitDiffPaths gitDiffLine).2
          | none =>
            match minusLine with
            | some ml =>
              if ml ≠ "--- /dev/null" then stripAB (String.mk (ml.data.drop 4))
              else (parseGitDiffPaths gitDiffLine).2
            | none => (parseGitDiffPaths gitDiffLine).2
        let oldPath :=
          match minusLine with
          | some ml =>
            if ml ≠ "--- /dev/null" then
              (if stripAB (String.mk (ml.data.drop 4)) ≠ filePath
               then some (stripAB (String.mk (ml.data.drop 4))) else none)
            else none
          | none => none
        some ⟨filePath, oldPath, ext.1, ext.2, hunks, false, false⟩

/-- The chunk-splitting loop of `splitIntoFileChunks`: a new chunk starts at
each `diff --git ` line (except when the current chunk is still empty). -/
def splitChunksAux : List String → List String → List (List String)
  | [], cur => if cur.isEmpty then [] else [cur]
  | l :: ls, cur =>
    if charsPre "diff --git ".data l.data && !cur.isEmpty then
      cur :: splitChunksAux ls [l]
    else
      splitChunksAux ls (cur ++ [l])

/-- `splitIntoFileChunks` from `diff-parser.ts`, as line lists. -/
def splitIntoFileChunks (lines : List String) : List (List String) :=
  splitChunksAux lines []

/-- `parseDiff` from `diff-parser.ts`.  `!diffText.trim()` holds exactly
when every character is whitespace. -/
def parseDiff (diffText : String) : List FileDiff :=
  if diffText.data.all isJsWs then []
  else (splitIntoFileChunks (splitNl diffText)).filterMap parseFileChunk

/-! ## C2: hunk-line bookkeeping and Scenario A -/

/-- The Scenario A diff text. -/
def scenarioAText : String :=
  "diff --git a/f b/f\n--- a/f\n+++ b/f\n@@ -1,2 +1,2 @@\n-old\n+new\n unchanged\n"

/-- The Change Record Scenario A must produce. -/
def scenarioARecord : FileDiff :=
  ⟨"f", none, [⟨1, "new"⟩], [⟨1, "old"⟩],
   [⟨1, 2, 1, 2, ["@@ -1,2 +1,2 @@", "-old", "+new", " unchanged"]⟩], false, false⟩

/-- **C2.** Within a hunk the extraction loop keeps two counters initialized
from the header's `oldStart`/`newStart` (a missing count defaults to 1): a
`+` line emits an added entry at the new counter and increments it, a `-`
line emits a removed entry at the old counter and increments it, a context
line increments both without emitting, and the no-newline marker emits
nothing; and Scenario A parses to exactly one record for path `f` with
removed `{1,"old"}`, added `{1,"new"}`, and both flags false. -/
theorem C2_hunk_line_bookkeeping :
    (∀ (st : ExtractState) (cs : List Char),
      extractStep st (String.mk ('+' :: cs))
        = { st with added := st.added ++ [⟨st.newLineNum, String.mk cs⟩]
                    newLineNum := st.newLineNum + 1 })
  ∧ (∀ (st : ExtractState) (cs : List Char),
      extractStep st (String.mk ('-' :: cs))
        = { st with removed := st.removed ++ [⟨st.oldLineNum, String.mk cs⟩]
                    oldLineNum := st.oldLineNum + 1 })
  ∧ (∀ (st : ExtractState) (cs : List Char),
      extractStep st (String.mk (' ' :: cs))
        = { st with oldLineNum := st.oldLineNum + 1, newLineNum := st.newLineNum + 1 })
  ∧ (∀ st : ExtractState, extractStep st noNewlineMarker = st)
  ∧ (∀ (acc : List DiffLine × List DiffLine) (h : DiffHunk),
      extractHunk acc h
        = ((h.lines.foldl extractStep ⟨h.oldStart, h.newStart, acc.1, acc.2⟩).added,
           (h.lines.foldl extractStep ⟨h.oldStart, h.newStart, acc.1, acc.2⟩).removed))
  ∧ parseHunkHeader "@@ -3 +7 @@" = some (3, 1, 7, 1)
  ∧ parseDiff scenarioAText = [scenarioARecord] :=
  ⟨fun _ _ => rfl, fun _ _ => rfl, fun _ _ => rfl, fun _ => rfl,
   fun _ _ => rfl, by decide, by decide⟩

/-! ## C8: strictly increasing line numbers -/

/-- Ordering of extracted lines by line number. -/
def lineLt (x y : DiffLine) : Prop := x.lineNumber < y.lineNumber

/-- The extraction of one step decomposes into the step from empty output
lists: counters ignore the lists, emissions are appended. -/
theorem extractStep_decompose (st : ExtractState) (l : String) :
    extractStep st l
    = ⟨(extractStep ⟨st.oldLineNum, st.newLineNum, [], []⟩ l).oldLineNum,
       (extractStep ⟨st.oldLineNum, st.newLineNum, [], []⟩ l).newLineNum,
       st.added ++ (extractStep ⟨st.oldLineNum, st.newLineNum, [], []⟩ l).added,
       st.removed ++ (extractStep ⟨st.oldLineNum, st.newLineNum, [], []⟩ l).removed⟩ := by
  obtain ⟨o, n, a, r⟩ := st
  simp only [extractStep]
  by_cases h1 : charsPre "@@".data l.data = true
  · simp [h1]
  · by_cases h2 : l = noNewlineMarker
    · simp [h1, h2]
    · by_cases h3 : charsPre "+".data l.data = true
      · simp [h1, h2, h3]
      · by_cases h4 : charsPre "-".data l.data = true
        · simp [h1, h2, h3, h4]
        · by_cases h5 : charsPre " ".data l.data = true
          · simp [h1, h2, h3, h4, h5]
          · simp [h1, h2, h3, h4, h5]

/-- Fold-level decomposition over a hunk's lines. -/
theorem extractFold_decompose (ls : List String) (st : ExtractState) :
    ls.foldl extractStep st
    = ⟨(ls.foldl extractStep ⟨st.oldLineNum, st.newLineNum, [], []⟩).oldLineNum,
       (ls.foldl extractStep ⟨st.oldLineNum, st.newLineNum, [], []⟩).newLineNum,
       st.added ++ (ls.foldl extractStep ⟨st.oldLineNum, st.newLineNum, [], []⟩).added,
       st.removed ++ (ls.foldl extractStep ⟨st.oldLineNum, st.newLineNum, [], []⟩).removed⟩ := by
  induction ls generalizing st with
  | nil => simp
  | cons l ls ih =>
    simp only [List.foldl_cons]
    rw [extractStep_decompose st l]
    rw [ih ⟨(extractStep ⟨st.oldLineNum, st.newLineNum, [], []⟩ l).oldLineNum,
      (extractStep ⟨st.oldLineNum, st.newLineNum, [], []⟩ l).newLineNum,
      st.added ++ (extractStep ⟨st.oldLineNum, st.newLineNum, [], []⟩ l).added,
      st.removed ++ (extractStep ⟨st.oldLineNum, st.newLineNum, [], []⟩ l).removed⟩]
    rw [ih (extractStep ⟨st.oldLineNum, st.newLineNum, [], []⟩ l)]
    simp [List.append_assoc]

/-- The loop invariant: output lists are strictly increasing and bounded by
the corresponding counter. -/
def ExtractInv (st : ExtractState) : Prop :=
  (∀ d ∈ st.added, d.lineNumber < st.newLineNum)
  ∧ List.Chain' lineLt st.added
  ∧ (∀ d ∈ st.removed, d.lineNumber < st.oldLineNum)
  ∧ List.Chain' lineLt st.removed

theorem mem_of_getLast?_mem {α : Type _} {l : List α} {a : α}
    (h : a ∈ l.getLast?) : a ∈ l := by
  induction l with
  | nil => simp [List.getLast?] at h
  | cons b t ih =>
    cases t with
    | nil =>
      simp [List.getLast?] at h
      simp [h]
    | cons c t' =>
      rw [List.getLast?_cons_cons] at h
      exact List.mem_cons_of_mem _ (ih h)

theorem extractStep_inv (st : ExtractState) (l : String) (h : ExtractInv st) :
    ExtractInv (extractStep st l)
  ∧ st.oldLineNum ≤ (extractStep st l).oldLineNum
  ∧ st.newLineNum ≤ (extractStep st l).newLineNum := by
  obtain ⟨ha, hca, hr, hcr⟩ := h
  simp only [extractStep]
  by_cases h1 : charsPre "@@".data l.data = true
  · simp only [h1, if_true]
    exact ⟨⟨ha, hca, hr, hcr⟩, le_refl _, le_refl _⟩
  · simp only [h1, if_false, Bool.not_eq_true] at *
    by_cases h2 : l = noNewlineMarker
    · simp only [h2, if_pos rfl]
      exact ⟨⟨ha, hca, hr, hcr⟩, le_refl _, le_refl _⟩
    · rw [if_neg h2]
      by_cases h3 : charsPre "+".data l.data = true
      · rw [if_pos h3]
        refine ⟨⟨?_, ?_, hr, hcr⟩, le_refl _, Nat.le_succ _⟩
        · intro d hd
          rcases List.mem_append.mp hd with hd | hd
          · exact Nat.lt_succ_of_lt (ha d hd)
          · rcases List.mem_singleton.mp hd with rfl
            exact Nat.lt_succ_self _
        · refine List.Chain'.append hca (List.chain'_singleton _) ?_
          intro x hx y hy
          rcases List.mem_singleton.mp (by simpa using hy) with rfl
          exact ha x (mem_of_getLast?_mem hx)
      · rw [if_neg h3]
        by_cases h4 : charsPre "-".data l.data = true
        · rw [if_pos h4]
          refine ⟨⟨ha, hca, ?_, ?_⟩, Nat.le_succ _, le_refl _⟩
          · intro d hd
            rcases List.mem_append.mp hd with hd | hd
            · exact Nat.lt_succ_of_lt (hr d hd)
            · rcases List.mem_singleton.mp hd with rfl
              exact Nat.lt_succ_self _
          · refine List.Chain'.append hcr (List.chain'_singleton _) ?_
            intro x hx y hy
            rcases List.mem_singleton.mp (by simpa using hy) with rfl
            exact hr x (mem_of_getLast?_mem hx)
        · rw [if_neg h4]
          by_cases h5 : charsPre " ".data l.data = true
          · rw [if_pos h5]
            refine ⟨⟨?_, hca, ?_, hcr⟩, Nat.le_succ _, Nat.le_succ _⟩
            · intro d hd
              exact Nat.lt_succ_of_lt (ha d hd)
            · intro d hd
              exact Nat.lt_succ_of_lt (hr d hd)
          · rw [if_neg h5]
            exact ⟨⟨ha, hca, hr, hcr⟩, le_refl _, le_refl _⟩

theorem extractFold_inv (ls : List String) (st : ExtractState) (h : ExtractInv st) :
    ExtractInv (ls.foldl extractStep st)
  ∧ st.oldLineNum ≤ (ls.foldl extractStep st).oldLineNum
  ∧ st.newLineNum ≤ (ls.foldl extractStep st).newLineNum := by
  induction ls generalizing st with
  | nil => exact ⟨h, le_refl _, le_refl _⟩
  | cons l ls ih =>
    obtain ⟨hstep, ho, hn⟩ := extractStep_inv st l h
    obtain ⟨hfold, ho', hn'⟩ := ih (extractStep st l) hstep
    exact ⟨hfold, le_trans ho ho', le_trans hn hn'⟩

/-- The final counter values of one hunk's extraction (independent of the
carried output lists). -/
def hunkEnd (h : DiffHunk) : ExtractState :=
  h.lines.foldl extractStep ⟨h.oldStart, h.newStart, [], []⟩

/-- The hunks of a record are ordered: each hunk starts at or after the
previous hunk's final counters. -/
def hunksOrdered (hs : List DiffHunk) : Prop :=
  List.Chain' (fun h1 h2 => (hunkEnd h1).oldLineNum ≤ h2.oldStart
    ∧ (hunkEnd h1).newLineNum ≤ h2.newStart) hs

theorem extractAll_fold_inv (hs : List DiffHunk) (a r : List DiffLine)
    (hca : List.Chain' lineLt a) (hcr : List.Chain' lineLt r)
    (hbound : ∀ h1 ∈ hs.head?,
      (∀ d ∈ a, d.lineNumber < h1.newStart) ∧ (∀ d ∈ r, d.lineNumber < h1.oldStart))
    (hord : hunksOrdered hs) :
    List.Chain' lineLt (hs.foldl extractHunk (a, r)).1
  ∧ List.Chain' lineLt (hs.foldl extractHunk (a, r)).2 := by
  induction hs generalizing a r with
  | nil => exact ⟨hca, hcr⟩
  | cons h hs ih =>
    have hb := hbound h (by simp)
    have hinv : ExtractInv ⟨h.oldStart, h.newStart, a, r⟩ := ⟨hb.1, hca, hb.2, hcr⟩
    obtain ⟨⟨hA, hcA, hR, hcR⟩, _, _⟩ :=
      extractFold_inv h.lines ⟨h.oldStart, h.newStart, a, r⟩ hinv
    have hdec := extractFold_decompose h.lines ⟨h.oldStart, h.newStart, a, r⟩
    have hcounters :
        (h.lines.foldl extractStep ⟨h.oldStart, h.newStart, a, r⟩).oldLineNum
          = (hunkEnd h).oldLineNum
      ∧ (h.lines.foldl extractStep ⟨h.oldStart, h.newStart, a, r⟩).newLineNum
          = (hunkEnd h).newLineNum := by
      rw [hdec]
      exact ⟨rfl, rfl⟩
    simp only [List.foldl_cons]
    have hstep : extractHunk (a, r) h
        = ((h.lines.foldl extractStep ⟨h.oldStart, h.newStart, a, r⟩).added,
           (h.lines.foldl extractStep ⟨h.oldStart, h.newStart, a, r⟩).removed) := rfl
    rw [hstep]
    refine ih _ _ hcA hcR ?_ (List.chain'_cons'.mp hord).2
    intro h2 hh2
    have hrel := (List.chain'_cons'.mp hord).1 h2 hh2
    constructor
    · intro d hd
      calc d.lineNumber
          < (h.lines.foldl extractStep ⟨h.oldStart, h.newStart, a, r⟩).newLineNum := hA d hd
        _ = (hunkEnd h).newLineNum := hcounters.2
        _ ≤ h2.newStart := hrel.2
    · intro d hd
      calc d.lineNumber
          < (h.lines.foldl extractStep ⟨h.oldStart, h.newStart, a, r⟩).oldLineNum := hR d hd
        _ = (hunkEnd h).oldLineNum := hcounters.1
        _ ≤ h2.oldStart := hrel.1

/-- Every record `parseFileChunk` produces carries the extraction of its own
hunks as its added/removed lists. -/
theorem parseFileChunk_lines (lines : List String) (r : FileDiff)
    (h : parseFileChunk lines = some r) :
    r.addedLines = (extractAll r.hunks).1 ∧ r.removedLines = (extractAll r.hunks).2 := by
  simp only [parseFileChunk] at h
  split at h
  · exact Option.noConfusion h
  · split at h
    · rcases Option.some.inj h with rfl
      exact ⟨rfl, rfl⟩
    · split at h
      · rcases Option.some.inj h with rfl
        exact ⟨rfl, rfl⟩
      · rcases Option.some.inj h with rfl
        exact ⟨rfl, rfl⟩

/-- **C8 (amended).** Every Change Record the parser produces whose hunks are
ordered (each hunk's declared start counters at or after the previous hunk's
final counters — true of well-formed diffs) has strictly increasing line
numbers in its added list and in its removed list.  Adversarial hunk headers
out of order violate the invariant (see the counterexample). -/
theorem C8_strictly_increasing_lines (text : String) (r : FileDiff)
    (hr : r ∈ parseDiff text) (hord : hunksOrdered r.hunks) :
    List.Chain' lineLt r.addedLines ∧ List.Chain' lineLt r.removedLines := by
  have hchunk : ∃ chunk, parseFileChunk chunk = some r := by
    rw [parseDiff] at hr
    split at hr
    · simp at hr
    · obtain ⟨chunk, _, hc⟩ := List.mem_filterMap.mp hr
      exact ⟨chunk, hc⟩
  obtain ⟨chunk, hc⟩ := hchunk
  obtain ⟨ha, hrem⟩ := parseFileChunk_lines chunk r hc
  rw [ha, hrem, extractAll]
  exact extractAll_fold_inv r.hunks [] [] (List.chain'_nil) (List.chain'_nil)
    (fun h1 _ => ⟨fun d hd => absurd hd (List.not_mem_nil d),
      fun d hd => absurd hd (List.not_mem_nil d)⟩) hord

/-- Witness for `C8_strictly_increasing_lines`: the Scenario A record. -/
theorem C8_strictly_increasing_lines_witness :
    List.Chain' lineLt scenarioARecord.addedLines
  ∧ List.Chain' lineLt scenarioARecord.removedLines :=
  C8_strictly_increasing_lines scenarioAText scenarioARecord (by decide)
    (by simp [hunksOrdered, scenarioARecord])

/-- A diff whose second hunk header starts before the first. -/
def cexDiffText : String :=
  "diff --git a/f b/f\n--- a/f\n+++ b/f\n@@ -5,1 +5,1 @@\n-x\n@@ -1,1 +1,1 @@\n-y\n"

/-- **C8 counterexample.** The parser trusts hunk headers: a chunk whose
second hunk starts before the first yields a record whose removed-line
numbers are `[5, 1]`, not strictly increasing. -/
theorem C8_strictly_increasing_lines_counterexample :
    (parseDiff cexDiffText).map (fun r => r.removedLines)
      = [[⟨5, "x"⟩, ⟨1, "y"⟩]]
  ∧ ¬ List.Chain' lineLt [(⟨5, "x"⟩ : DiffLine), ⟨1, "y"⟩] := by
  constructor
  · decide
  · intro hchain
    have := (List.chain'_cons.mp hchain).1
    simp [lineLt] at this

end PfEval
